import Mathlib

set_option linter.unusedSectionVars false

/-!
Verification of the SLAPENIR credential-sanitizing proxy core against its
specification.

The development shallowly embeds the Rust sources of `src/proxy/src/` into
Lean.  Text handled by the proxy is modelled as `List Char` and raw wire
bytes as `List Nat`; both instantiate a single generic model of the
`aho-corasick` crate's `replace_all` with its default (`Standard`) match
semantics, which the `SecretMap` engine in `sanitizer.rs` relies on:
matches are reported non-overlappingly, earliest end position first, and
at a given end position the longest pattern wins (a trie node's own match
precedes the matches inherited through failure links).  Replacement output
is never rescanned.
-/

namespace Slapenir

/-- A pattern table: the list of `(pattern, replacement)` pairs handed to
the matching automaton, in pattern-id order. -/
abbrev Table (α : Type) := List (List α × List α)

variable {α : Type} [DecidableEq α]

/-- All table entries whose pattern is a nonempty suffix of `w`, i.e. the
matches that end exactly at the end of `w`. -/
def candAt (t : Table α) (w : List α) : Table α :=
  t.filter (fun pr => !pr.1.isEmpty && pr.1.isSuffixOf w)

/-- Among the matches ending at one position, the automaton reports the
longest pattern (ties: lowest pattern id, i.e. earliest in the table). -/
def pickLongest : Table α → Option (List α × List α)
  | [] => none
  | pr :: rest =>
    match pickLongest rest with
    | none => some pr
    | some qr => if qr.1.length > pr.1.length then some qr else some pr

/-- Scan end positions `e, e+1, …` (at most `k` of them) for the first one
where some pattern match ends; return that end position and the reported
match. -/
def findEndFrom (t : Table α) (s : List α) : Nat → Nat → Option (Nat × (List α × List α))
  | _, 0 => none
  | e, k+1 =>
    match pickLongest (candAt t (s.take e)) with
    | some pr => some (e, pr)
    | none => findEndFrom t s (e+1) k

/-- First (earliest-ending) match of any table pattern in `s`:
`some (e, pattern, replacement)` with `e` the end position. -/
def findEnd (t : Table α) (s : List α) : Option (Nat × (List α × List α)) :=
  findEndFrom t s 1 s.length

/-- Non-overlapping left-to-right replacement: emit the unmatched gap, the
replacement, and continue after the match, never rescanning replacement
output.  `fuel` bounds the recursion; `fuel = s.length` always suffices
because every match consumes at least one element. -/
def replaceAllGo (t : Table α) : Nat → List α → List α
  | 0, s => s
  | fuel+1, s =>
    match findEnd t s with
    | none => s
    | some (e, pr) => s.take (e - pr.1.length) ++ pr.2 ++ replaceAllGo t fuel (s.drop e)

/-- Model of `AhoCorasick::replace_all` over the table `t`. -/
def replaceAll (t : Table α) (s : List α) : List α :=
  replaceAllGo t s.length s

/-! ### Basic facts about the match search -/

theorem mem_candAt {t : Table α} {w : List α} {pr : List α × List α} :
    pr ∈ candAt t w ↔ pr ∈ t ∧ pr.1 ≠ [] ∧ pr.1 <:+ w := by
  unfold candAt
  rw [List.mem_filter, Bool.and_eq_true]
  constructor
  · rintro ⟨hmem, hne, hsuf⟩
    refine ⟨hmem, ?_, List.isSuffixOf_iff_suffix.mp hsuf⟩
    simpa [List.isEmpty_iff] using hne
  · rintro ⟨hmem, hne, hsuf⟩
    refine ⟨hmem, ?_, List.isSuffixOf_iff_suffix.mpr hsuf⟩
    simpa [List.isEmpty_iff] using hne

theorem pickLongest_eq_none {t : Table α} : pickLongest t = none ↔ t = [] := by
  cases t with
  | nil => simp [pickLongest]
  | cons pr rest =>
    rcases hr : pickLongest rest with _ | qr
    · simp [pickLongest, hr]
    · simp only [pickLongest, hr]
      split <;> simp

theorem pickLongest_mem {t : Table α} {pr : List α × List α}
    (h : pickLongest t = some pr) : pr ∈ t := by
  induction t with
  | nil => simp [pickLongest] at h
  | cons qr rest ih =>
    rcases hr : pickLongest rest with _ | rr
    · simp only [pickLongest, hr] at h
      simp at h; simp [h]
    · simp only [pickLongest, hr] at h
      split at h
      · simp at h; subst h; exact List.mem_cons_of_mem _ (ih hr)
      · simp at h; simp [h]

theorem findEndFrom_some {t : Table α} {s : List α} {e k e' : Nat}
    {pr : List α × List α}
    (h : findEndFrom t s e k = some (e', pr)) :
    e ≤ e' ∧ e' < e + k ∧ pickLongest (candAt t (s.take e')) = some pr ∧
      ∀ j, e ≤ j → j < e' → pickLongest (candAt t (s.take j)) = none := by
  induction k generalizing e with
  | zero => simp [findEndFrom] at h
  | succ k ih =>
    unfold findEndFrom at h
    rcases hp : pickLongest (candAt t (s.take e)) with _ | qr <;> rw [hp] at h
    · obtain ⟨h1, h2, h3, h4⟩ := ih h
      refine ⟨by omega, by omega, h3, ?_⟩
      intro j hj1 hj2
      rcases Nat.eq_or_lt_of_le hj1 with rfl | hlt
      · exact hp
      · exact h4 j hlt hj2
    · simp at h
      obtain ⟨rfl, rfl⟩ := h
      exact ⟨le_refl _, by omega, hp, fun j hj1 hj2 => absurd hj1 (by omega)⟩

theorem findEndFrom_none {t : Table α} {s : List α} {e k : Nat}
    (h : findEndFrom t s e k = none) :
    ∀ j, e ≤ j → j < e + k → pickLongest (candAt t (s.take j)) = none := by
  induction k generalizing e with
  | zero => intro j h1 h2; omega
  | succ k ih =>
    unfold findEndFrom at h
    rcases hp : pickLongest (candAt t (s.take e)) with _ | qr <;> rw [hp] at h
    · intro j hj1 hj2
      rcases Nat.eq_or_lt_of_le hj1 with rfl | hlt
      · exact hp
      · exact ih h j hlt (by omega)
    · exact absurd h (by simp)

theorem findEndFrom_of_none {t : Table α} {s : List α} {e k : Nat}
    (h : ∀ j, pickLongest (candAt t (s.take j)) = none) :
    findEndFrom t s e k = none := by
  induction k generalizing e with
  | zero => rfl
  | succ k ih => unfold findEndFrom; rw [h e]; exact ih

/-- Every nonempty infix of `s` is a suffix of some `s.take e` with
`1 ≤ e ≤ s.length`: an occurrence has an end position. -/
theorem infix_gives_end {p s : List α} (hp : p ≠ []) (h : p <:+: s) :
    ∃ e, 1 ≤ e ∧ e ≤ s.length ∧ p <:+ s.take e := by
  obtain ⟨u, v, huv⟩ := h
  have hplen : 0 < p.length := List.length_pos.mpr hp
  have hslen : s.length = u.length + p.length + v.length := by
    rw [← huv]; simp; omega
  refine ⟨u.length + p.length, by omega, by omega, ?_⟩
  have htake : s.take (u.length + p.length) = u ++ p := by
    rw [← huv, show u ++ p ++ v = (u ++ p) ++ v by simp,
      show u.length + p.length = (u ++ p).length by simp]
    exact List.take_left _ _
  rw [htake]
  exact List.suffix_append u p

/-- If `findEnd` reports no match, no nonempty table pattern occurs in `s`. -/
theorem findEnd_none_no_occur {t : Table α} {s : List α}
    (h : findEnd t s = none) {pr : List α × List α}
    (hmem : pr ∈ t) (hne : pr.1 ≠ []) : ¬ pr.1 <:+: s := by
  intro hocc
  obtain ⟨e, he1, he2, hsuf⟩ := infix_gives_end hne hocc
  unfold findEnd at h
  have hnone := findEndFrom_none h e he1 (by omega)
  have hmemc : pr ∈ candAt t (s.take e) := mem_candAt.mpr ⟨hmem, hne, hsuf⟩
  rw [pickLongest_eq_none.mp hnone] at hmemc
  exact absurd hmemc (List.not_mem_nil _)

/-- Facts extracted from a successful `findEnd`. -/
theorem findEnd_some_spec {t : Table α} {s : List α} {e : Nat} {pr : List α × List α}
    (h : findEnd t s = some (e, pr)) :
    1 ≤ e ∧ e ≤ s.length ∧ pr ∈ t ∧ pr.1 ≠ [] ∧ pr.1 <:+ s.take e ∧
      ∀ j, 1 ≤ j → j < e → pickLongest (candAt t (s.take j)) = none := by
  unfold findEnd at h
  obtain ⟨h1, h2, h3, h4⟩ := findEndFrom_some h
  have hmem := pickLongest_mem h3
  obtain ⟨hmt, hne, hsuf⟩ := mem_candAt.mp hmem
  exact ⟨h1, by omega, hmt, hne, hsuf, h4⟩

/-- Minimality of the reported end position: the gap before the match start
contains no full occurrence of any nonempty table pattern. -/
theorem gap_no_occur {t : Table α} {s : List α} {e : Nat} {pr : List α × List α}
    (h : findEnd t s = some (e, pr)) {qr : List α × List α}
    (hmem : qr ∈ t) (hne : qr.1 ≠ []) : ¬ qr.1 <:+: s.take (e - pr.1.length) := by
  intro hocc
  obtain ⟨he1, he2, _, hpne, hsuf, hmin⟩ := findEnd_some_spec h
  obtain ⟨j, hj1, hj2, hjsuf⟩ := infix_gives_end hne hocc
  have hplen : 0 < pr.1.length := List.length_pos.mpr hpne
  have hlen : (s.take (e - pr.1.length)).length ≤ e - pr.1.length := by
    simp [List.length_take]
  have hjle : j ≤ e - pr.1.length := by omega
  have hjlt : j < e := by omega
  have htt : (s.take (e - pr.1.length)).take j = s.take j := by
    rw [List.take_take]
    congr 1
    omega
  rw [htt] at hjsuf
  have hmemc : qr ∈ candAt t (s.take j) := mem_candAt.mpr ⟨hmem, hne, hjsuf⟩
  rw [pickLongest_eq_none.mp (hmin j hj1 hjlt)] at hmemc
  exact absurd hmemc (List.not_mem_nil _)

/-- Core boundary analysis: an occurrence of `p` in `g ++ r ++ T` must lie
inside `g`, inside `r`, inside `T`, straddle one of the two seams, or
swallow `r` whole; the hypotheses exclude every case. -/
theorem no_occur_append3 {p g r T : List α}
    (hg : ¬ p <:+: g)
    (hT : ¬ p <:+: T)
    (hr : ¬ p <:+: r)
    (hpre : ∀ x y, p = x ++ y → x ≠ [] → y ≠ [] → ¬ y <+: r)
    (hsuf : ∀ x y, p = x ++ y → x ≠ [] → y ≠ [] → ¬ x <:+ r)
    (hfull : ¬ r <:+: p) :
    ¬ p <:+: (g ++ r ++ T) := by
  rintro ⟨u, v, huv⟩
  simp only [List.append_assoc] at huv
  rcases List.append_eq_append_iff.mp huv with ⟨w, hgw, hpv⟩ | ⟨w, huw, hrt⟩
  · rcases List.append_eq_append_iff.mp hpv with ⟨w3, hww, hv⟩ | ⟨w3, hp, hrt2⟩
    · exact hg ((List.IsPrefix.isInfix ⟨w3, hww.symm⟩).trans
        (List.IsSuffix.isInfix ⟨u, hgw.symm⟩))
    · rcases eq_or_ne w [] with rfl | hwne
      · simp only [List.nil_append] at hp
        subst hp
        rcases List.append_eq_append_iff.mp hrt2 with ⟨z, hpz, hT2⟩ | ⟨z, hrz, hv2⟩
        · exact hfull (List.IsPrefix.isInfix ⟨z, hpz.symm⟩)
        · exact hr (List.IsPrefix.isInfix ⟨z, hrz.symm⟩)
      · rcases eq_or_ne w3 [] with rfl | hw3ne
        · rw [List.append_nil] at hp
          subst hp
          exact hg (List.IsSuffix.isInfix ⟨u, hgw.symm⟩)
        · rcases List.append_eq_append_iff.mp hrt2 with ⟨z, hw3z, hT2⟩ | ⟨z, hrz, hv2⟩
          · exact hfull ⟨w, z, by simp [hp, hw3z]⟩
          · exact hpre w w3 hp hwne hw3ne ⟨z, hrz.symm⟩
  · rcases List.append_eq_append_iff.mp hrt with ⟨w2, hww, hT2⟩ | ⟨w2, hrw, hpv2⟩
    · exact hT ⟨w2, v, by simp [hT2]⟩
    · rcases List.append_eq_append_iff.mp hpv2 with ⟨w3, hw2w, hv3⟩ | ⟨w3, hp, hT3⟩
      · exact hr ((List.IsPrefix.isInfix ⟨w3, hw2w.symm⟩).trans
          (List.IsSuffix.isInfix ⟨w, hrw.symm⟩))
      · rcases eq_or_ne w2 [] with rfl | hw2ne
        · simp only [List.nil_append] at hp
          subst hp
          exact hT (List.IsPrefix.isInfix ⟨v, hT3.symm⟩)
        · rcases eq_or_ne w3 [] with rfl | hw3ne
          · rw [List.append_nil] at hp
            subst hp
            exact hr (List.IsSuffix.isInfix ⟨w, hrw.symm⟩)
          · exact hsuf w2 w3 hp hw2ne hw3ne ⟨w, hrw.symm⟩

/-- Safety conditions on a pattern table under which replacement output can
never contain a pattern: patterns are nonempty, no pattern occurs inside a
replacement, no replacement occurs inside a pattern, and no pattern can
straddle a replacement boundary. -/
def SafeTable (t : Table α) : Prop :=
  (∀ pr ∈ t, pr.1 ≠ ([] : List α)) ∧
  (∀ pr ∈ t, ∀ qr ∈ t, ¬ pr.1 <:+: qr.2) ∧
  (∀ pr ∈ t, ∀ qr ∈ t, ¬ qr.2 <:+: pr.1) ∧
  (∀ pr ∈ t, ∀ qr ∈ t, ∀ x y, pr.1 = x ++ y → x ≠ [] → y ≠ [] → ¬ y <+: qr.2) ∧
  (∀ pr ∈ t, ∀ qr ∈ t, ∀ x y, pr.1 = x ++ y → x ≠ [] → y ≠ [] → ¬ x <:+ qr.2)

/-- Main engine theorem: over a safe table, `replaceAllGo` output contains
no occurrence of any pattern (given adequate fuel). -/
theorem replaceAllGo_no_occur {t : Table α} (hsafe : SafeTable t) :
    ∀ fuel s, s.length ≤ fuel → ∀ pr ∈ t, ¬ pr.1 <:+: replaceAllGo t fuel s := by
  obtain ⟨h1, h2, h3, h4, h5⟩ := hsafe
  intro fuel
  induction fuel with
  | zero =>
    intro s hs pr hmem
    have hse : s = [] := List.length_eq_zero.mp (by omega)
    subst hse
    simpa [replaceAllGo, List.infix_nil] using h1 pr hmem
  | succ fuel ih =>
    intro s hs pr hmem
    cases hfe : findEnd t s with
    | none =>
      simp only [replaceAllGo, hfe]
      exact findEnd_none_no_occur hfe hmem (h1 pr hmem)
    | some epr =>
      obtain ⟨e, qr⟩ := epr
      simp only [replaceAllGo, hfe]
      obtain ⟨he1, he2, hqmem, hqne, hqsuf, hmin⟩ := findEnd_some_spec hfe
      apply no_occur_append3
      · exact gap_no_occur hfe hmem (h1 pr hmem)
      · apply ih _ _ _ hmem
        rw [List.length_drop]
        omega
      · exact h2 pr hmem qr hqmem
      · exact fun x y hxy hx hy => h4 pr hmem qr hqmem x y hxy hx hy
      · exact fun x y hxy hx hy => h5 pr hmem qr hqmem x y hxy hx hy
      · exact h3 pr hmem qr hqmem

/-- Over a safe table, `replaceAll` output contains no pattern occurrence. -/
theorem replaceAll_no_occur {t : Table α} (hsafe : SafeTable t)
    {s : List α} {pr : List α × List α} (hmem : pr ∈ t) :
    ¬ pr.1 <:+: replaceAll t s :=
  replaceAllGo_no_occur hsafe s.length s (le_refl _) pr hmem

/-- A string containing no pattern occurrence is left unchanged, for any
fuel. -/
theorem replaceAllGo_id_of_no_occur {t : Table α} {s : List α}
    (h : ∀ pr ∈ t, ¬ pr.1 <:+: s) :
    ∀ fuel, replaceAllGo t fuel s = s := by
  have hfe : findEnd t s = none := by
    unfold findEnd
    apply findEndFrom_of_none
    intro j
    rcases hpl : pickLongest (candAt t (s.take j)) with _ | pr
    · rfl
    · exfalso
      obtain ⟨hmt, hne, hsuf⟩ := mem_candAt.mp (pickLongest_mem hpl)
      exact h pr hmt (hsuf.isInfix.trans (List.take_prefix j s).isInfix)
  intro fuel
  cases fuel with
  | zero => rfl
  | succ fuel => simp only [replaceAllGo, hfe]

/-- Over a safe table, replacement is idempotent. -/
theorem replaceAll_idem {t : Table α} (hsafe : SafeTable t) (s : List α) :
    replaceAll t (replaceAll t s) = replaceAll t s :=
  replaceAllGo_id_of_no_occur
    (fun _ hmem => replaceAll_no_occur hsafe hmem) _

/-! ### Helper lemmas about seam elements -/

/-- A nonempty prefix of `a :: w` contains `a`. -/
theorem mem_of_prefix_cons {y w : List α} {a : α} (h : y <+: a :: w) (hy : y ≠ []) :
    a ∈ y := by
  obtain ⟨u, hu⟩ := h
  cases y with
  | nil => exact absurd rfl hy
  | cons b y' =>
    simp only [List.cons_append, List.cons.injEq] at hu
    rw [hu.1]
    simp

/-- A nonempty suffix of `w ++ [a]` contains `a`. -/
theorem mem_of_suffix_concat {x w : List α} {a : α} (h : x <:+ w ++ [a]) (hx : x ≠ []) :
    a ∈ x := by
  obtain ⟨u, hu⟩ := h
  rcases List.append_eq_append_iff.mp hu with ⟨z, hwz, hxz⟩ | ⟨z, huz, hxz2⟩
  · rw [hxz]; simp
  · have hlen := congrArg List.length hxz2
    simp at hlen
    have hxl : 0 < x.length := List.length_pos.mpr hx
    have hz : z = [] := List.length_eq_zero.mp (by omega)
    subst hz
    simp only [List.nil_append] at hxz2
    rw [← hxz2]
    simp

/-- A sanitize-direction table (every pattern replaced by one fixed value
`red = lb :: mid ++ [rb]`) is safe as soon as the patterns are nonempty,
avoid the two bracket delimiters, and are not substrings of `red`. -/
theorem sanitize_table_safe (reals : List (List α)) (lb rb : α) (mid : List α)
    (red : List α) (hredeq : red = lb :: mid ++ [rb])
    (h1 : ∀ r ∈ reals, r ≠ [])
    (h2 : ∀ r ∈ reals, lb ∉ r ∧ rb ∉ r)
    (h3 : ∀ r ∈ reals, ¬ r <:+: red) :
    SafeTable (reals.map (fun r => (r, red))) := by
  have hmem : ∀ pr ∈ reals.map (fun r => (r, red)), pr.1 ∈ reals ∧ pr.2 = red := by
    intro pr hpr
    obtain ⟨r, hr, rfl⟩ := List.mem_map.mp hpr
    exact ⟨hr, rfl⟩
  refine ⟨?_, ?_, ?_, ?_, ?_⟩
  · intro pr hpr
    exact h1 _ (hmem pr hpr).1
  · intro pr hpr qr hqr
    rw [(hmem qr hqr).2]
    exact h3 _ (hmem pr hpr).1
  · intro pr hpr qr hqr
    rw [(hmem qr hqr).2]
    intro hocc
    have : lb ∈ pr.1 := hocc.subset (by rw [hredeq]; simp)
    exact (h2 _ (hmem pr hpr).1).1 this
  · intro pr hpr qr hqr x y hxy hx hy
    rw [(hmem qr hqr).2, hredeq]
    intro hpref
    have : lb ∈ y := mem_of_prefix_cons hpref hy
    have : lb ∈ pr.1 := by rw [hxy]; exact List.mem_append_right _ this
    exact (h2 _ (hmem pr hpr).1).1 this
  · intro pr hpr qr hqr x y hxy hx hy
    rw [(hmem qr hqr).2, hredeq]
    intro hsuf
    have hsuf' : x <:+ (lb :: mid) ++ [rb] := by simpa using hsuf
    have : rb ∈ x := mem_of_suffix_concat hsuf' hx
    have : rb ∈ pr.1 := by rw [hxy]; exact List.mem_append_left _ this
    exact (h2 _ (hmem pr hpr).1).2 this

/-! ## The secret map (`sanitizer.rs`)

Proxy text is modelled as `List Char`, raw wire data as `List Nat` (bytes).
-/

/-- The literal replacement string `"[REDACTED]"`. -/
def REDACTED : List Char := ['[', 'R', 'E', 'D', 'A', 'C', 'T', 'E', 'D', ']']

/-- The bytes of `b"[REDACTED]"`. -/
def REDACTEDBytes : List Nat := [91, 82, 69, 68, 65, 67, 84, 69, 68, 93]

/-- UTF-8 encoding of one character (model of Rust `str::as_bytes` for a
single `char`). -/
def utf8EncodeChar (c : Char) : List Nat :=
  let n := c.toNat
  if n < 128 then [n]
  else if n < 2048 then [192 + n / 64, 128 + n % 64]
  else if n < 65536 then [224 + n / 4096, 128 + (n / 64) % 64, 128 + n % 64]
  else [240 + n / 262144, 128 + (n / 4096) % 64, 128 + (n / 64) % 64, 128 + n % 64]

/-- UTF-8 encoding of a string (model of `String::into_bytes`). -/
def utf8Encode (s : List Char) : List Nat :=
  s.foldr (fun c acc => utf8EncodeChar c ++ acc) []

/-- `SecretMap` from `sanitizer.rs`: parallel vectors of dummy placeholder
strings and real credential strings, index `i` pairing `dummy_secrets[i]`
with `real_secrets[i]` (the automata are rebuilt from these vectors on
demand in the model). -/
structure SecretMap where
  dummy_secrets : List (List Char)
  real_secrets : List (List Char)

/-- The precomputed byte form of the reals (security fix A). -/
def SecretMap.real_secrets_bytes (m : SecretMap) : List (List Nat) :=
  m.real_secrets.map utf8Encode

/-- `SecretMap::inject`: replace every occurrence of a dummy by its paired
real value (outbound direction). -/
def SecretMap.inject (m : SecretMap) (s : List Char) : List Char :=
  replaceAll (m.dummy_secrets.zip m.real_secrets) s

/-- `SecretMap::sanitize`: replace every occurrence of a real value by
`[REDACTED]` (inbound direction, text form). -/
def SecretMap.sanitize (m : SecretMap) (s : List Char) : List Char :=
  replaceAll (m.real_secrets.map (fun r => (r, REDACTED))) s

/-- `SecretMap::sanitize_bytes`: byte-exact sanitization of the raw body. -/
def SecretMap.sanitize_bytes (m : SecretMap) (b : List Nat) : List Nat :=
  replaceAll (m.real_secrets_bytes.map (fun r => (r, REDACTEDBytes))) b

/-- `SecretMap::new` rejects an empty secret table. -/
def SecretMap.new (secrets : List (List Char × List Char)) :
    Except (List Char) SecretMap :=
  if secrets.isEmpty then .error ("Secret map cannot be empty").data
  else .ok ⟨secrets.map Prod.fst, secrets.map Prod.snd⟩

/-- The dummy→real injection table of a length-matched map is safe under
the non-overlap conditions between dummies and reals. -/
theorem inject_table_safe (m : SecretMap)
    (h1 : ∀ d ∈ m.dummy_secrets, d ≠ [])
    (h2 : ∀ d ∈ m.dummy_secrets, ∀ r ∈ m.real_secrets, ¬ d <:+: r)
    (h3 : ∀ d ∈ m.dummy_secrets, ∀ r ∈ m.real_secrets, ¬ r <:+: d)
    (h4 : ∀ d ∈ m.dummy_secrets, ∀ r ∈ m.real_secrets, ∀ x y,
      d = x ++ y → x ≠ [] → y ≠ [] → ¬ y <+: r)
    (h5 : ∀ d ∈ m.dummy_secrets, ∀ r ∈ m.real_secrets, ∀ x y,
      d = x ++ y → x ≠ [] → y ≠ [] → ¬ x <:+ r) :
    SafeTable (m.dummy_secrets.zip m.real_secrets) := by
  have hmem : ∀ pr ∈ m.dummy_secrets.zip m.real_secrets,
      pr.1 ∈ m.dummy_secrets ∧ pr.2 ∈ m.real_secrets := by
    intro pr hpr
    cases pr with
    | mk d r => exact List.of_mem_zip hpr
  refine ⟨?_, ?_, ?_, ?_, ?_⟩
  · intro pr hpr
    exact h1 _ (hmem pr hpr).1
  · intro pr hpr qr hqr
    exact h2 _ (hmem pr hpr).1 _ (hmem qr hqr).2
  · intro pr hpr qr hqr
    exact h3 _ (hmem pr hpr).1 _ (hmem qr hqr).2
  · intro pr hpr qr hqr
    exact h4 _ (hmem pr hpr).1 _ (hmem qr hqr).2
  · intro pr hpr qr hqr
    exact h5 _ (hmem pr hpr).1 _ (hmem qr hqr).2

/-! ### Concrete maps used in counterexamples and witnesses -/

/-- Counterexample map: dummies `d1`, `d2` paired with reals `x` and `]y`.
It satisfies the spec's data-model invariant (no real equals a dummy, no
real is a substring of `[REDACTED]`), yet the second real contains the
redaction delimiter `]`. -/
def mapBracket : SecretMap := ⟨[['d', '1'], ['d', '2']], [['x'], [']', 'y']]⟩

/-- Counterexample map for injection: dummy `D` paired with real `XDX`,
whose real value contains the dummy. -/
def mapSelf : SecretMap := ⟨[['D']], [['X', 'D', 'X']]⟩

/-- A well-behaved map used by witnesses. -/
def mapSafe : SecretMap := ⟨[("DUMMY_A").data], [("skreal12").data]⟩

/-! ## Claim C2: `sanitize_bytes` removes every real value (P1) -/

/-- Claim C2 (amended): for every secret map whose real values have
nonempty byte encodings containing neither `[` (0x5B) nor `]` (0x5D) and
not substrings of `[REDACTED]`, and in which no real equals any dummy, the
output of `sanitize_bytes` contains no occurrence of any real value. -/
theorem sanitize_bytes_no_real_occurrence (m : SecretMap)
    (_hdum : ∀ r ∈ m.real_secrets, ∀ d ∈ m.dummy_secrets, r ≠ d)
    (hne : ∀ rb ∈ m.real_secrets_bytes, rb ≠ [])
    (hbr : ∀ rb ∈ m.real_secrets_bytes, (91 : Nat) ∉ rb ∧ (93 : Nat) ∉ rb)
    (hred : ∀ rb ∈ m.real_secrets_bytes, ¬ rb <:+: REDACTEDBytes)
    (b : List Nat) :
    ∀ rb ∈ m.real_secrets_bytes, ¬ rb <:+: m.sanitize_bytes b := by
  intro rb hrb
  have hsafe := sanitize_table_safe m.real_secrets_bytes 91 93
    [82, 69, 68, 65, 67, 84, 69, 68] REDACTEDBytes rfl hne hbr hred
  exact replaceAll_no_occur hsafe (List.mem_map_of_mem _ hrb)

/-- Claim C2 counterexample: the map with reals `x` and `]y` satisfies the
claimed data-model invariant, yet sanitizing the bytes of `xy` yields
`[REDACTED]y`, which contains the real value `]y`. -/
theorem sanitize_bytes_counterexample :
    (∀ r ∈ mapBracket.real_secrets, ∀ d ∈ mapBracket.dummy_secrets, r ≠ d) ∧
    (∀ r ∈ mapBracket.real_secrets, ¬ r <:+: REDACTED) ∧
    ∃ rb ∈ mapBracket.real_secrets_bytes,
      rb <:+: mapBracket.sanitize_bytes [120, 121] := by
  decide

/-- Witness: the amended C2 theorem applied to a concrete map and body. -/
theorem sanitize_bytes_no_real_occurrence_witness :
    (∀ rb ∈ mapSafe.real_secrets_bytes, rb ≠ []) ∧
    ∀ rb ∈ mapSafe.real_secrets_bytes,
      ¬ rb <:+: mapSafe.sanitize_bytes [115, 107, 114, 101, 97, 108, 49, 50, 33] :=
  ⟨by decide, sanitize_bytes_no_real_occurrence mapSafe (by decide) (by decide)
    (by decide) (by decide) _⟩

/-! ## Claim C5: `sanitize` is idempotent (P2) -/

/-- Shared helper: over a map whose reals are nonempty, bracket-free and
not substrings of `[REDACTED]`, the text sanitizer is idempotent. -/
theorem sanitize_stable (m : SecretMap)
    (hne : ∀ r ∈ m.real_secrets, r ≠ [])
    (hbr : ∀ r ∈ m.real_secrets, '[' ∉ r ∧ ']' ∉ r)
    (hred : ∀ r ∈ m.real_secrets, ¬ r <:+: REDACTED)
    (x : List Char) :
    m.sanitize (m.sanitize x) = m.sanitize x :=
  replaceAll_idem (sanitize_table_safe m.real_secrets '[' ']'
    ['R', 'E', 'D', 'A', 'C', 'T', 'E', 'D'] REDACTED rfl hne hbr hred) x

/-- Claim C5 (amended): `sanitize` is idempotent for every secret map whose
real values are nonempty, contain neither `[` nor `]`, and are not
substrings of `[REDACTED]`. -/
theorem sanitize_idempotent (m : SecretMap)
    (hne : ∀ r ∈ m.real_secrets, r ≠ [])
    (hbr : ∀ r ∈ m.real_secrets, '[' ∉ r ∧ ']' ∉ r)
    (hred : ∀ r ∈ m.real_secrets, ¬ r <:+: REDACTED)
    (x : List Char) :
    m.sanitize (m.sanitize x) = m.sanitize x :=
  sanitize_stable m hne hbr hred x

/-- Claim C5 counterexample: with reals `x` and `]y` (which satisfy the
data-model invariant), `sanitize (sanitize "xy")` differs from
`sanitize "xy"`: the first pass yields `[REDACTED]y` and the second pass
rewrites the `]y` it contains. -/
theorem sanitize_idempotent_counterexample :
    (∀ r ∈ mapBracket.real_secrets, ∀ d ∈ mapBracket.dummy_secrets, r ≠ d) ∧
    (∀ r ∈ mapBracket.real_secrets, ¬ r <:+: REDACTED) ∧
    mapBracket.sanitize (mapBracket.sanitize ['x', 'y']) ≠
      mapBracket.sanitize ['x', 'y'] := by
  decide

/-- Witness: the amended C5 theorem applied to a concrete map and text. -/
theorem sanitize_idempotent_witness :
    (∀ r ∈ mapSafe.real_secrets, r ≠ []) ∧
    mapSafe.sanitize (mapSafe.sanitize ("skreal12 more").data) =
      mapSafe.sanitize ("skreal12 more").data :=
  ⟨by decide, sanitize_idempotent mapSafe (by decide) (by decide) (by decide) _⟩

/-! ## Claim C6: `inject` removes every dummy (P3) -/

/-- Claim C6 (amended): if dummies are nonempty and dummies and reals do
not overlap (no dummy inside a real, no real inside a dummy, no nonempty
proper suffix of a dummy is a prefix of a real, no nonempty proper prefix
of a dummy is a suffix of a real), then `inject` output contains no
occurrence of any dummy. -/
theorem inject_no_dummy_occurrence (m : SecretMap)
    (hlen : m.dummy_secrets.length = m.real_secrets.length)
    (h1 : ∀ d ∈ m.dummy_secrets, d ≠ [])
    (h2 : ∀ d ∈ m.dummy_secrets, ∀ r ∈ m.real_secrets, ¬ d <:+: r)
    (h3 : ∀ d ∈ m.dummy_secrets, ∀ r ∈ m.real_secrets, ¬ r <:+: d)
    (h4 : ∀ d ∈ m.dummy_secrets, ∀ r ∈ m.real_secrets,
      ∀ k < d.length, 0 < k → ¬ d.drop k <+: r)
    (h5 : ∀ d ∈ m.dummy_secrets, ∀ r ∈ m.real_secrets,
      ∀ k < d.length, 0 < k → ¬ d.take k <:+ r)
    (x : List Char) :
    ∀ d ∈ m.dummy_secrets, ¬ d <:+: m.inject x := by
  have hsafe : SafeTable (m.dummy_secrets.zip m.real_secrets) := by
    apply inject_table_safe m h1 h2 h3
    · intro d hd r hr x' y' hxy hx hy
      have hdl : d.length = x'.length + y'.length := by rw [hxy]; simp
      have hk1 : 0 < x'.length := List.length_pos.mpr hx
      have hk2 : 0 < y'.length := List.length_pos.mpr hy
      have hdrop : d.drop x'.length = y' := by rw [hxy]; exact List.drop_left x' y'
      have := h4 d hd r hr x'.length (by omega) hk1
      rwa [hdrop] at this
    · intro d hd r hr x' y' hxy hx hy
      have hdl : d.length = x'.length + y'.length := by rw [hxy]; simp
      have hk1 : 0 < x'.length := List.length_pos.mpr hx
      have hk2 : 0 < y'.length := List.length_pos.mpr hy
      have htake : d.take x'.length = x' := by rw [hxy]; exact List.take_left x' y'
      have := h5 d hd r hr x'.length (by omega) hk1
      rwa [htake] at this
  intro d hd
  obtain ⟨i, hi, hdi⟩ := List.mem_iff_getElem.mp hd
  have hir : i < m.real_secrets.length := by omega
  have hmemz : (d, m.real_secrets[i]) ∈ m.dummy_secrets.zip m.real_secrets := by
    apply List.mem_iff_getElem.mpr
    refine ⟨i, ?_, ?_⟩
    · rw [List.length_zip]; omega
    · rw [List.getElem_zip, hdi]
  exact replaceAll_no_occur hsafe hmemz

/-- Claim C6 counterexample: the map `D → XDX` satisfies the data-model
invariant, but `inject "D" = "XDX"` contains the dummy `D` (the dummy's
real value is present in the map). -/
theorem inject_counterexample :
    (∀ r ∈ mapSelf.real_secrets, ∀ d ∈ mapSelf.dummy_secrets, r ≠ d) ∧
    (∀ r ∈ mapSelf.real_secrets, ¬ r <:+: REDACTED) ∧
    ∃ d ∈ mapSelf.dummy_secrets, d <:+: mapSelf.inject ['D'] := by
  decide

/-- Witness: the amended C6 theorem applied to a concrete map and text. -/
theorem inject_no_dummy_occurrence_witness :
    (mapSafe.dummy_secrets.length = mapSafe.real_secrets.length) ∧
    ∀ d ∈ mapSafe.dummy_secrets,
      ¬ d <:+: mapSafe.inject ("pay DUMMY_A now").data :=
  ⟨by decide, inject_no_dummy_occurrence mapSafe (by decide) (by decide)
    (by decide) (by decide) (by decide) (by decide) _⟩

/-! ## HTTP message model (`http_parser.rs`)

Bodies and header values on the decrypted streams are modelled at
character granularity (`List Char`); `String::from_utf8_lossy` is the
identity on this representation, which is exact for well-formed text.
Header names are lowercased at parse time; the `HashMap` is modelled as an
association list whose order stands in for the map's iteration order. -/

abbrev Headers := List (List Char × List Char)

/-- `HashMap::get` on a header map. -/
def getHeader (hs : Headers) (name : List Char) : Option (List Char) :=
  (hs.find? (fun kv => kv.1 == name)).map (fun kv => kv.2)

/-- `HashMap::get_mut`-style update: rewrite the value of `name` when the
header is present, leave the map unchanged otherwise. -/
def setHeaderIfPresent (hs : Headers) (name value : List Char) : Headers :=
  hs.map (fun kv => if kv.1 == name then (kv.1, value) else kv)

/-- `http_parser.rs::ParsedRequest`. -/
structure ParsedRequest where
  method : List Char
  path : List Char
  version : Nat
  headers : Headers
  body : List Char

/-- `http_parser.rs::ParsedResponse`. -/
structure ParsedResponse where
  version : Nat
  code : Nat
  reason : List Char
  headers : Headers
  body : List Char

def CRLF : List Char := [Char.ofNat 13, Char.ofNat 10]

/-- `http_parser.rs::serialize_request`. -/
def serialize_request (req : ParsedRequest) : List Char :=
  req.method ++ [' '] ++ req.path ++ (" HTTP/1.").data ++
    [Char.ofNat (48 + req.version)] ++ CRLF ++
    req.headers.foldr (fun kv acc => kv.1 ++ (": ").data ++ kv.2 ++ CRLF ++ acc) [] ++
    CRLF ++ req.body

/-- `http_parser.rs::serialize_response`. -/
def serialize_response (resp : ParsedResponse) : List Char :=
  ("HTTP/1.").data ++ [Char.ofNat (48 + resp.version)] ++ [' '] ++
    (Nat.toDigits 10 resp.code) ++ [' '] ++ resp.reason ++ CRLF ++
    resp.headers.foldr (fun kv acc => kv.1 ++ (": ").data ++ kv.2 ++ CRLF ++ acc) [] ++
    CRLF ++ resp.body

/-- Rust `u8::to_ascii_lowercase` on a character. -/
def asciiLower (c : Char) : Char :=
  if 65 ≤ c.toNat ∧ c.toNat ≤ 90 then Char.ofNat (c.toNat + 32) else c

/-- Rust `str::eq_ignore_ascii_case`. -/
def eqIgnoreAsciiCase (a b : List Char) : Bool :=
  a.map asciiLower == b.map asciiLower

/-- Rust `str::contains(&pat)`: substring test, modelled through the
decidable infix relation. -/
def strContains (hay needle : List Char) : Bool :=
  decide (needle <:+: hay)

/-! ## Claim C8: connection decision (`connect_full.rs`) -/

/-- `connect_full.rs::should_close_connection`: close only when either side
sent `Connection: close` (ASCII case-insensitive).  The HTTP version is
never consulted. -/
def should_close_connection (request : ParsedRequest) (response : ParsedResponse) : Bool :=
  (match getHeader request.headers ("connection").data with
   | some conn => eqIgnoreAsciiCase conn ("close").data
   | none => false) ||
  (match getHeader response.headers ("connection").data with
   | some conn => eqIgnoreAsciiCase conn ("close").data
   | none => false)

/-- Claim C8 (amended): after a request/response pair the MITM session is
closed exactly when one of the two `Connection` headers compares equal to
`close` ASCII-case-insensitively; the HTTP version plays no role (in
particular HTTP/1.0 without `Connection: keep-alive` does not close). -/
theorem should_close_connection_iff (req : ParsedRequest) (resp : ParsedResponse) :
    should_close_connection req resp = true ↔
      (∃ v, getHeader req.headers ("connection").data = some v ∧
        eqIgnoreAsciiCase v ("close").data = true) ∨
      (∃ v, getHeader resp.headers ("connection").data = some v ∧
        eqIgnoreAsciiCase v ("close").data = true) := by
  unfold should_close_connection
  rw [Bool.or_eq_true]
  constructor
  · intro h
    rcases h with h | h
    · rcases hh : getHeader req.headers ("connection").data with _ | v
      · rw [hh] at h; exact absurd h (by simp)
      · rw [hh] at h; exact Or.inl ⟨v, rfl, h⟩
    · rcases hh : getHeader resp.headers ("connection").data with _ | v
      · rw [hh] at h; exact absurd h (by simp)
      · rw [hh] at h; exact Or.inr ⟨v, rfl, h⟩
  · rintro (⟨v, hv, hc⟩ | ⟨v, hv, hc⟩)
    · left; rw [hv]; exact hc
    · right; rw [hv]; exact hc

/-- Concrete request carrying `Connection: Close` (mixed case). -/
def reqClose : ParsedRequest :=
  ⟨("GET").data, ("/").data, 1, [(("connection").data, ("Close").data)], []⟩

/-- Witness: the C8 characterization at a concrete request whose
mixed-case `Connection: Close` header closes the session. -/
theorem should_close_connection_iff_witness :
    should_close_connection reqClose
      ⟨1, 200, ("OK").data, [], []⟩ = true :=
  (should_close_connection_iff reqClose ⟨1, 200, ("OK").data, [], []⟩).mpr
    (Or.inl ⟨("Close").data, rfl, by decide⟩)

/-- Concrete HTTP/1.0 request without any `Connection` header. -/
def req10 : ParsedRequest := ⟨("GET").data, ("/").data, 0, [], []⟩

/-- Concrete HTTP/1.0 response without any `Connection` header. -/
def resp10 : ParsedResponse := ⟨0, 200, ("OK").data, [], []⟩

/-- Claim C8 counterexample: an HTTP/1.0 exchange with no `Connection`
header at all is kept alive by the code, contradicting the claimed
`1.0 without keep-alive closes` rule. -/
theorem should_close_connection_counterexample :
    req10.version = 0 ∧ resp10.version = 0 ∧
    getHeader req10.headers ("connection").data = none ∧
    getHeader resp10.headers ("connection").data = none ∧
    should_close_connection req10 resp10 = false := by
  decide

/-! ## Claim C4: host whitelist wildcard matching -/

/-- `strategy.rs::BearerStrategy`.  The real token is loaded from the
environment at construction; `none` models a missing variable. -/
structure BearerStrategy where
  name : List Char
  env_var : List Char
  dummy_pattern : List Char
  allowed_hosts : List (List Char)
  real_token : Option (List Char)

/-- `BearerStrategy::matches_wildcard`: a `*.`-led pattern strips the two
leading characters and accepts any host ending with the remaining raw
string (or equal to it); any other pattern must compare equal. -/
def BearerStrategy.matches_wildcard (pattern host : List Char) : Bool :=
  if (['*', '.'] : List Char).isPrefixOf pattern then
    (pattern.drop 2).isSuffixOf host || host == pattern.drop 2
  else
    pattern == host

/-- `BearerStrategy::validate_host`: empty whitelist allows everything,
otherwise some entry must match. -/
def BearerStrategy.validate_host (s : BearerStrategy) (host : List Char) : Bool :=
  if s.allowed_hosts.isEmpty then true
  else s.allowed_hosts.any (fun pattern => BearerStrategy.matches_wildcard pattern host)

/-- `BearerStrategy::detect`: the dummy pattern occurs in the
`authorization` header, the `x-api-key` header, or the body. -/
def BearerStrategy.detect (s : BearerStrategy) (headers : Headers) (body : List Char) : Bool :=
  (match getHeader headers ("authorization").data with
   | some auth => strContains auth s.dummy_pattern
   | none => false) ||
  (match getHeader headers ("x-api-key").data with
   | some key => strContains key s.dummy_pattern
   | none => false) ||
  strContains body s.dummy_pattern

/-- `strategies/aws_sigv4.rs::AWSSigV4Strategy` (the fields relevant to
detection and host validation). -/
structure AWSSigV4Strategy where
  name : List Char
  access_key : Option (List Char)
  secret_key : Option (List Char)
  session_token : Option (List Char)
  region : List Char
  service : List Char
  allowed_hosts : List (List Char)

/-- `AWSSigV4Strategy::matches_wildcard` (textually identical to the
bearer version). -/
def AWSSigV4Strategy.matches_wildcard (pattern host : List Char) : Bool :=
  if (['*', '.'] : List Char).isPrefixOf pattern then
    (pattern.drop 2).isSuffixOf host || host == pattern.drop 2
  else
    pattern == host

/-- `AWSSigV4Strategy::validate_host`. -/
def AWSSigV4Strategy.validate_host (s : AWSSigV4Strategy) (host : List Char) : Bool :=
  if s.allowed_hosts.isEmpty then true
  else s.allowed_hosts.any (fun pattern => AWSSigV4Strategy.matches_wildcard pattern host)

/-- `AWSSigV4Strategy::detect`: `AKIA` and `DUMMY` both occur in the
`authorization` header, or both occur in the body. -/
def AWSSigV4Strategy.detect (_s : AWSSigV4Strategy) (headers : Headers) (body : List Char) : Bool :=
  (match getHeader headers ("authorization").data with
   | some auth => strContains auth (("AKIA").data) && strContains auth (("DUMMY").data)
   | none => false) ||
  (strContains body (("AKIA").data) && strContains body (("DUMMY").data))

/-- The acceptance condition the code actually implements, stated at the
Prop level for comparison with the spec's wording: a `*.suffix` entry
accepts any host whose name ends with the raw character string `suffix`
(no dot required at the seam) or equals `suffix`; every other entry must
be equal to the host byte-for-byte (case-sensitively). -/
def hostMatchesCode (pattern host : List Char) : Prop :=
  if ['*', '.'] <+: pattern then
    pattern.drop 2 <:+ host ∨ host = pattern.drop 2
  else host = pattern

theorem matches_wildcard_iff (pattern host : List Char) :
    BearerStrategy.matches_wildcard pattern host = true ↔ hostMatchesCode pattern host := by
  unfold BearerStrategy.matches_wildcard hostMatchesCode
  by_cases h : ['*', '.'] <+: pattern
  · have hb : (['*', '.'] : List Char).isPrefixOf pattern = true :=
      List.isPrefixOf_iff_prefix.mpr h
    rw [if_pos hb, if_pos h, Bool.or_eq_true, List.isSuffixOf_iff_suffix, beq_iff_eq]
  · have hb : ¬ (['*', '.'] : List Char).isPrefixOf pattern = true := by
      intro hc
      exact h (List.isPrefixOf_iff_prefix.mp hc)
    rw [if_neg hb, if_neg h, beq_iff_eq]
    exact eq_comm

/-- Claim C4 (amended): for a strategy with a non-empty allow-list,
`validate_host` accepts exactly the hosts matching some entry under the
code's semantics `hostMatchesCode` — raw `ends_with` for wildcards (so a
host like `evil-example.com` matches `*.example.com`) and case-sensitive
equality for exact entries; the AWS strategy's matcher is identical. -/
theorem validate_host_characterization :
    (∀ (s : BearerStrategy) (host : List Char), s.allowed_hosts ≠ [] →
      (s.validate_host host = true ↔
        ∃ p ∈ s.allowed_hosts, hostMatchesCode p host)) ∧
    (∀ pattern host, AWSSigV4Strategy.matches_wildcard pattern host =
      BearerStrategy.matches_wildcard pattern host) := by
  constructor
  · intro s host hne
    unfold BearerStrategy.validate_host
    rw [if_neg (by simpa [List.isEmpty_iff] using hne)]
    rw [List.any_eq_true]
    constructor
    · rintro ⟨p, hp, hm⟩
      exact ⟨p, hp, (matches_wildcard_iff p host).mp hm⟩
    · rintro ⟨p, hp, hm⟩
      exact ⟨p, hp, (matches_wildcard_iff p host).mpr hm⟩
  · intro pattern host
    rfl

/-- Wildcard strategy used in the C4 counterexample. -/
def strategyWild : BearerStrategy :=
  ⟨("w").data, ("ENV_W").data, ("DUMMY_W").data, [("*.example.com").data], none⟩

/-- Exact-entry strategy with upper-case letters, for the
case-insensitivity half of the C4 counterexample. -/
def strategyExact : BearerStrategy :=
  ⟨("e").data, ("ENV_E").data, ("DUMMY_E").data, [("API.example.com").data], none⟩

/-- Claim C4 counterexample: `evil-example.com` is accepted by
`*.example.com` although it is neither `example.com` nor a subdomain of
it, and the exact entry `API.example.com` rejects `api.example.com`
although the two are ASCII-case-insensitively equal. -/
theorem validate_host_counterexample :
    strategyWild.validate_host (("evil-example.com").data) = true ∧
    ("evil-example.com").data ≠ ("example.com").data ∧
    ¬ ('.' :: ("example.com").data) <:+ ("evil-example.com").data ∧
    strategyExact.validate_host (("api.example.com").data) = false ∧
    eqIgnoreAsciiCase (("API.example.com").data) (("api.example.com").data) = true := by
  decide

/-- Witness: the amended C4 characterization applied to a concrete
strategy and host. -/
theorem validate_host_characterization_witness :
    strategyWild.allowed_hosts ≠ [] ∧
    (strategyWild.validate_host (("a.example.com").data) = true ↔
      ∃ p ∈ strategyWild.allowed_hosts, hostMatchesCode p (("a.example.com").data)) :=
  ⟨by decide, validate_host_characterization.1 strategyWild _ (by decide)⟩

/-! ## Claim C3: host whitelist guard in the MITM session loop -/

/-- The cross-strategy capability record (`AuthStrategy` trait object as
consumed by the session loop). -/
structure Strategy where
  name : List Char
  strategy_type : List Char
  detect : Headers → List Char → Bool
  validate_host : List Char → Bool
  allowed_hosts : List (List Char)

/-- Modelled from the spec: `SecurityError` is matched on in
`connect_full.rs` but not defined anywhere under `src/`; §4.7 specifies
the payload `HostNotWhitelisted { credential_type, host, allowed_hosts }`. -/
inductive SecurityError where
  | HostNotWhitelisted (credential_type : List Char) (host : List Char)
      (allowed_hosts : List (List Char))

/-- Modelled from the spec: `detect_and_validate_strategies` is called by
`connect_full.rs` but not defined anywhere under `src/`.  Per §4.7, for
every strategy that detects the request, the upstream hostname must pass
`validate_host`; any rejection fails closed with `HostNotWhitelisted`.
The strategies that detected (and validated) are returned. -/
def detect_and_validate_strategies (strategies : List Strategy) (headers : Headers)
    (body : List Char) (host : List Char) :
    Except SecurityError (List Strategy) :=
  match strategies with
  | [] => .ok []
  | s :: rest =>
    if s.detect headers body then
      if s.validate_host host then
        match detect_and_validate_strategies rest headers body host with
        | .ok v => .ok (s :: v)
        | .error e => .error e
      else
        .error (.HostNotWhitelisted s.strategy_type host s.allowed_hosts)
    else
      detect_and_validate_strategies rest headers body host

/-- Wrap the `Bearer` variant into the capability record. -/
def BearerStrategy.toStrategy (s : BearerStrategy) : Strategy :=
  ⟨s.name, ("bearer").data, s.detect, s.validate_host, s.allowed_hosts⟩

/-- The request phase of one MITM session-loop iteration
(`connect_full.rs` lines 110–184): run the whitelist guard over the parsed
request; on success inject credentials into the body (updating
`Content-Length` when the body changed and the header is present) and into
every header value, and serialize — these are the bytes written to the
upstream stream.  A guard failure aborts before anything is serialized. -/
def processRequest (strategies : List Strategy) (m : SecretMap) (hostname : List Char)
    (req : ParsedRequest) : Except SecurityError (List Char) :=
  match detect_and_validate_strategies strategies req.headers req.body hostname with
  | .error e => .error e
  | .ok _ =>
    let injected := m.inject req.body
    let req1 : ParsedRequest :=
      if injected ≠ req.body then
        { req with
          body := injected,
          headers := setHeaderIfPresent req.headers (("content-length").data)
            (Nat.toDigits 10 (utf8Encode injected).length) }
      else req
    let req2 : ParsedRequest :=
      { req1 with headers := req1.headers.map (fun kv => (kv.1, m.inject kv.2)) }
    .ok (serialize_request req2)

theorem guard_fails_of_violation {strategies : List Strategy} {headers : Headers}
    {body host : List Char} {s : Strategy} (hmem : s ∈ strategies)
    (hdet : s.detect headers body = true) (hval : s.validate_host host = false) :
    ∃ e, detect_and_validate_strategies strategies headers body host = .error e := by
  induction strategies with
  | nil => cases hmem
  | cons s0 rest ih =>
    rcases List.mem_cons.mp hmem with rfl | hmem'
    · unfold detect_and_validate_strategies
      rw [if_pos hdet, if_neg (by rw [hval]; exact Bool.false_ne_true)]
      exact ⟨_, rfl⟩
    · unfold detect_and_validate_strategies
      by_cases hd : s0.detect headers body = true
      · rw [if_pos hd]
        by_cases hv : s0.validate_host host = true
        · rw [if_pos hv]
          obtain ⟨e, he⟩ := ih hmem'
          rw [he]
          exact ⟨e, rfl⟩
        · rw [if_neg hv]
          exact ⟨_, rfl⟩
      · rw [if_neg hd]
        exact ih hmem'

theorem guard_ok_validates {strategies : List Strategy} {headers : Headers}
    {body host : List Char} {v : List Strategy}
    (h : detect_and_validate_strategies strategies headers body host = .ok v) :
    ∀ s ∈ strategies, s.detect headers body = true → s.validate_host host = true := by
  induction strategies generalizing v with
  | nil => intro s hs; cases hs
  | cons s0 rest ih =>
    intro s hs hdet
    unfold detect_and_validate_strategies at h
    by_cases hd : s0.detect headers body = true
    · rw [if_pos hd] at h
      by_cases hv : s0.validate_host host = true
      · rw [if_pos hv] at h
        rcases List.mem_cons.mp hs with rfl | hs'
        · exact hv
        · rcases hrec : detect_and_validate_strategies rest headers body host with e | v'
          · rw [hrec] at h; exact absurd h (by simp)
          · exact ih hrec s hs' hdet
      · rw [if_neg hv] at h
        exact absurd h (by simp)
    · rw [if_neg hd] at h
      rcases List.mem_cons.mp hs with rfl | hs'
      · exact absurd hdet hd
      · exact ih h s hs' hdet

/-- Claim C3: if any configured strategy detects a dummy credential in the
parsed request and rejects the upstream host, the request phase fails
closed with `SecurityError::HostNotWhitelisted` and no byte of the request
is produced for the upstream stream; conversely every request that is
serialized for upstream has all its detecting strategies accept the host. -/
theorem whitelist_guard_blocks (strategies : List Strategy) (m : SecretMap)
    (hostname : List Char) (req : ParsedRequest) :
    (∀ s ∈ strategies, s.detect req.headers req.body = true →
        s.validate_host hostname = false →
        ∃ ct h ah, processRequest strategies m hostname req =
          .error (.HostNotWhitelisted ct h ah)) ∧
    (∀ out, processRequest strategies m hostname req = .ok out →
      ∀ s ∈ strategies, s.detect req.headers req.body = true →
        s.validate_host hostname = true) := by
  constructor
  · intro s hmem hdet hval
    obtain ⟨e, he⟩ := guard_fails_of_violation hmem hdet hval
    cases e with
    | HostNotWhitelisted ct hh ah =>
      refine ⟨ct, hh, ah, ?_⟩
      unfold processRequest
      rw [he]
  · intro out hout s hmem hdet
    unfold processRequest at hout
    rcases hrec : detect_and_validate_strategies strategies req.headers req.body hostname
      with e | v
    · rw [hrec] at hout
      exact absurd hout (by simp)
    · exact guard_ok_validates hrec s hmem hdet

/-- Concrete bearer strategy for the C3 witness (spec scenario 2). -/
def strategyOpenai : BearerStrategy :=
  ⟨("openai").data, ("OPENAI_API_KEY").data, ("DUMMY_OPENAI").data,
    [("api.openai.com").data], some (("sk-REAL").data)⟩

/-- Concrete request carrying the dummy credential in its body. -/
def reqDummy : ParsedRequest :=
  ⟨("POST").data, ("/v1/chat").data, 1,
    [(("host").data, ("attacker.example").data)],
    ("key DUMMY_OPENAI").data⟩

/-- Witness: the C3 theorem applied to a concrete strategy, request, and
non-whitelisted host. -/
theorem whitelist_guard_blocks_witness :
    strategyOpenai.toStrategy.detect reqDummy.headers reqDummy.body = true ∧
    strategyOpenai.toStrategy.validate_host (("attacker.example").data) = false ∧
    ∃ ct h ah,
      processRequest [strategyOpenai.toStrategy] mapSafe (("attacker.example").data)
        reqDummy = .error (.HostNotWhitelisted ct h ah) :=
  ⟨by decide, by decide,
    (whitelist_guard_blocks [strategyOpenai.toStrategy] mapSafe
        (("attacker.example").data) reqDummy).1
      strategyOpenai.toStrategy (List.mem_singleton.mpr rfl) (by decide) (by decide)⟩

/-! ## Claim C1: response sanitization in the MITM session loop -/

/-- The response phase of one MITM session-loop iteration
(`connect_full.rs` lines 204–241): decode the raw body
(`String::from_utf8_lossy`, the identity in this text model), apply the
text `sanitize` — not `sanitize_bytes` — updating `Content-Length` when
the body changed and the header is present, then sanitize every header
value.  The serialized result is written to the client unconditionally:
the loop has no second sanitize pass and no fail-closed branch. -/
def processResponse (m : SecretMap) (resp : ParsedResponse) : ParsedResponse :=
  let sanitized := m.sanitize resp.body
  let resp1 : ParsedResponse :=
    if sanitized ≠ resp.body then
      { resp with
        body := sanitized,
        headers := setHeaderIfPresent resp.headers (("content-length").data)
          (Nat.toDigits 10 (utf8Encode sanitized).length) }
    else resp
  { resp1 with headers := resp1.headers.map (fun kv => (kv.1, m.sanitize kv.2)) }

/-- Claim C1 (amended): the body the MITM session loop writes to the
client is the text `sanitize` of the (lossy-decoded) raw body, written
unconditionally and without any second-pass verification; nevertheless,
for maps whose reals are nonempty, bracket-free and not substrings of
`[REDACTED]`, the written body does pass a further sanitize unchanged. -/
theorem mitm_response_body_sanitized (m : SecretMap) (resp : ParsedResponse)
    (hne : ∀ r ∈ m.real_secrets, r ≠ [])
    (hbr : ∀ r ∈ m.real_secrets, '[' ∉ r ∧ ']' ∉ r)
    (hred : ∀ r ∈ m.real_secrets, ¬ r <:+: REDACTED) :
    (processResponse m resp).body = m.sanitize resp.body ∧
    m.sanitize ((processResponse m resp).body) = (processResponse m resp).body := by
  have hbody : (processResponse m resp).body = m.sanitize resp.body := by
    unfold processResponse
    dsimp only
    by_cases h : m.sanitize resp.body ≠ resp.body
    · rw [if_pos h]
    · rw [if_neg h]
      rw [not_ne_iff] at h
      exact h.symm
  refine ⟨hbody, ?_⟩
  rw [hbody]
  exact sanitize_stable m hne hbr hred resp.body

/-- Concrete upstream response whose body is `xy`. -/
def respLeak : ParsedResponse := ⟨1, 200, ("OK").data, [], ['x', 'y']⟩

/-- Claim C1 counterexample: with the invariant-satisfying map having
reals `x` and `]y`, the loop writes body `[REDACTED]y` for the upstream
body `xy`; a second sanitize pass changes those bytes, so the claimed
paranoid-verification invariant fails and nothing fails closed — the
response is still produced. -/
theorem mitm_response_counterexample :
    (∀ r ∈ mapBracket.real_secrets, ∀ d ∈ mapBracket.dummy_secrets, r ≠ d) ∧
    (processResponse mapBracket respLeak).body = ("[REDACTED]y").data ∧
    mapBracket.sanitize ((processResponse mapBracket respLeak).body) ≠
      (processResponse mapBracket respLeak).body := by
  decide

/-- Concrete response used by the C1 witness. -/
def respSafe : ParsedResponse :=
  ⟨1, 200, ("OK").data, [(("content-length").data, ("8").data)], ("skreal12").data⟩

/-- Witness: the amended C1 theorem applied to a concrete map and
response. -/
theorem mitm_response_body_sanitized_witness :
    (∀ r ∈ mapSafe.real_secrets, r ≠ []) ∧
    ((processResponse mapSafe respSafe).body = mapSafe.sanitize respSafe.body ∧
      mapSafe.sanitize ((processResponse mapSafe respSafe).body) =
        (processResponse mapSafe respSafe).body) :=
  ⟨by decide,
    mitm_response_body_sanitized mapSafe respSafe (by decide) (by decide) (by decide)⟩

/-! ## Claim C7: CONNECT tunnel dispatch (`connect.rs`) -/

/-- `connect.rs::should_intercept_tls`: raw string-suffix test on the
destination (`host:port`). -/
def should_intercept_tls (destination : List Char) : Bool :=
  ((":443").data).isSuffixOf destination || ((":8443").data).isSuffixOf destination

/-- Outcome of `connect.rs::tunnel` after the CONNECT upgrade completes. -/
inductive TunnelOutcome where
  | passthroughCopy (bufSize : Nat)
  | tunnelError (msg : List Char)
deriving DecidableEq

/-- The error message built by `connect.rs::tunnel_with_tls_mitm`. -/
def mitmStubMsg (destination : List Char) : List Char :=
  ("TLS MITM not yet fully implemented for ").data ++ destination

/-- `connect.rs::tunnel`: dispatch on the destination string.  The
intercept branch calls `connect.rs::tunnel_with_tls_mitm`, whose body
(after hostname extraction, which succeeds for every destination the
driver reaches since it contains a colon) is
`Err(ConnectError::TunnelError("TLS MITM not yet fully implemented for …"))`;
the other branch runs `tunnel_passthrough`, the bidirectional copy with
8 KiB (8192-byte) working buffers. -/
def tunnel (destination : List Char) : TunnelOutcome :=
  if should_intercept_tls destination then .tunnelError (mitmStubMsg destination)
  else .passthroughCopy 8192

/-- One direction of `connect.rs::tunnel_passthrough`: read into the
8 KiB buffer, stop at a zero-length read (peer closed), forward each chunk
verbatim.  The argument lists the successive `read` results; the value is
the byte stream written to the other peer. -/
def copyHalf : List (List Nat) → List Nat
  | [] => []
  | chunk :: rest => if chunk.isEmpty then [] else chunk ++ copyHalf rest

/-- Claim C7 (amended): the driver dispatches on the destination string —
destinations ending in `:443` or `:8443` are routed to the TLS-MITM
branch, which in `connect.rs` is an unimplemented stub that immediately
fails the tunnel with a `TunnelError` (the full MITM loop of
`connect_full.rs` is not reached from this driver); every other
destination enters passthrough mode, a bidirectional byte-for-byte copy
with 8192-byte working buffers per direction that runs until a zero-length
read. -/
theorem connect_dispatch (destination : List Char) :
    (should_intercept_tls destination = true ↔
      ((":443").data <:+ destination ∨ (":8443").data <:+ destination)) ∧
    (should_intercept_tls destination = true →
      tunnel destination = .tunnelError (mitmStubMsg destination)) ∧
    (should_intercept_tls destination = false →
      tunnel destination = .passthroughCopy 8192) ∧
    (∀ reads : List (List Nat),
      copyHalf reads = (reads.takeWhile (fun c => !c.isEmpty)).flatten) := by
  refine ⟨?_, ?_, ?_, ?_⟩
  · unfold should_intercept_tls
    rw [Bool.or_eq_true, List.isSuffixOf_iff_suffix, List.isSuffixOf_iff_suffix]
  · intro h
    unfold tunnel
    rw [if_pos h]
  · intro h
    unfold tunnel
    rw [if_neg (by rw [h]; exact Bool.false_ne_true)]
  · intro reads
    induction reads with
    | nil => rfl
    | cons c rest ih =>
      by_cases hc : c.isEmpty
      · simp [copyHalf, hc]
      · simp [copyHalf, hc, ih]

/-- Claim C7 counterexample: a CONNECT to port 443 does not start a TLS
MITM session in the wired driver — `tunnel` immediately fails with the
`not yet fully implemented` error, so no request/response loop runs. -/
theorem connect_dispatch_counterexample :
    tunnel (("api.openai.com:443").data) =
      .tunnelError (mitmStubMsg (("api.openai.com:443").data)) ∧
    (∀ n, tunnel (("api.openai.com:443").data) ≠ .passthroughCopy n) := by
  constructor
  · decide
  · intro n h
    have : should_intercept_tls (("api.openai.com:443").data) = true := by decide
    unfold tunnel at h
    rw [if_pos this] at h
    exact absurd h (by simp)

/-- Witness: the C7 theorem's passthrough branch at a concrete non-TLS
destination. -/
theorem connect_dispatch_witness :
    should_intercept_tls (("example.com:8080").data) = false ∧
    tunnel (("example.com:8080").data) = .passthroughCopy 8192 :=
  ⟨by decide, (connect_dispatch (("example.com:8080").data)).2.2.1 (by decide)⟩

/-! ## Claim C9: sanitization verification failure status (`proxy.rs`) -/

/-- `proxy.rs::ProxyError`. -/
inductive ProxyError where
  | RequestBodyRead (msg : List Char)
  | InvalidUtf8 (msg : List Char)
  | ForwardRequest (msg : List Char)
  | ResponseBodyRead (msg : List Char)
  | InvalidTargetUrl (msg : List Char)
  | MissingHeader (msg : List Char)
  | RequestBodyTooLarge (n : Nat)
  | ResponseBodyTooLarge (n : Nat)
deriving DecidableEq

/-- The HTTP status code chosen by `ProxyError::into_response`. -/
def ProxyError.status : ProxyError → Nat
  | .RequestBodyRead _ | .InvalidUtf8 _ => 400
  | .ForwardRequest _ | .ResponseBodyRead _ => 502
  | .InvalidTargetUrl _ | .MissingHeader _ => 400
  | .RequestBodyTooLarge _ | .ResponseBodyTooLarge _ => 413

/-- The sanitize-and-verify step of `proxy.rs::proxy_handler` (lines
257–274): binary-safe sanitization of the response bytes followed by the
paranoid second pass; on mismatch the handler returns
`Err(ProxyError::ResponseBodyRead("Sanitization verification failed"))`,
aborting the response. -/
def sanitizeAndVerify (m : SecretMap) (b : List Nat) : Except ProxyError (List Nat) :=
  let sanitized := m.sanitize_bytes b
  let verification := m.sanitize_bytes sanitized
  if verification ≠ sanitized then
    .error (.ResponseBodyRead (("Sanitization verification failed").data))
  else
    .ok sanitized

/-- Claim C9 (amended): when the paranoid second pass disagrees with the
first, `proxy_handler` returns `ProxyError::ResponseBodyRead`, whose
`into_response` maps to HTTP 502 (Bad Gateway) — not 500 — and the
response body is not forwarded. -/
theorem verification_failure_returns_502 (m : SecretMap) (b : List Nat)
    (hmismatch : m.sanitize_bytes (m.sanitize_bytes b) ≠ m.sanitize_bytes b) :
    sanitizeAndVerify m b =
      .error (.ResponseBodyRead (("Sanitization verification failed").data)) ∧
    (ProxyError.ResponseBodyRead (("Sanitization verification failed").data)).status
      = 502 := by
  constructor
  · unfold sanitizeAndVerify
    dsimp only
    rw [if_pos hmismatch]
  · rfl

/-- Claim C9 counterexample: a concrete map and body on which the second
pass differs; the handler's error carries status 502, not the claimed
500. -/
theorem verification_failure_counterexample :
    sanitizeAndVerify mapBracket [120, 121] =
      .error (.ResponseBodyRead (("Sanitization verification failed").data)) ∧
    (ProxyError.ResponseBodyRead (("Sanitization verification failed").data)).status
      = 502 ∧
    (502 : Nat) ≠ 500 := by
  refine ⟨rfl, rfl, by decide⟩

/-- Witness: the amended C9 theorem at a concrete map and body. -/
theorem verification_failure_returns_502_witness :
    (mapBracket.sanitize_bytes (mapBracket.sanitize_bytes [120, 121]) ≠
      mapBracket.sanitize_bytes [120, 121]) ∧
    (sanitizeAndVerify mapBracket [120, 121] =
      .error (.ResponseBodyRead (("Sanitization verification failed").data)) ∧
    (ProxyError.ResponseBodyRead (("Sanitization verification failed").data)).status
      = 502) :=
  ⟨by decide, verification_failure_returns_502 mapBracket [120, 121] (by decide)⟩

/-! ## Claim C10: certificate cache (`tls/cache.rs`) -/

/-- `tls/cache.rs::CacheEntry` (the certificate itself is irrelevant to
the claims and omitted). -/
structure CacheEntry where
  host : List Char
  last_accessed : Nat
deriving DecidableEq

/-- `tls/cache.rs::CertificateCache`: the `HashMap` is modelled as an
association list whose order stands in for the map's iteration order. -/
structure CertificateCache where
  entries : List CacheEntry
  max_capacity : Nat
deriving DecidableEq

/-- `Iterator::min_by_key(last_accessed)`: on ties Rust's `min_by_key`
returns the last minimal element of the iteration. -/
def minByKey : List CacheEntry → Option CacheEntry
  | [] => none
  | e :: rest =>
    match minByKey rest with
    | none => some e
    | some a => if a.last_accessed ≤ e.last_accessed then some a else some e

/-- `CertificateCache::evict_lru`: remove the entry whose
`last_accessed` is oldest; a no-op on an empty cache. -/
def evict_lru (entries : List CacheEntry) : List CacheEntry :=
  match minByKey entries with
  | none => entries
  | some m => entries.eraseP (fun e => e.host == m.host)

/-- `CertificateCache::get_or_create` as a state transition (`now` models
`Instant::now()`; the minted certificate is irrelevant to the claims).
A hit refreshes `last_accessed`; a miss mints, evicting the LRU entry
first when the cache is at (or above) capacity. -/
def CertificateCache.get_or_create (c : CertificateCache) (hostname : List Char)
    (now : Nat) : CertificateCache :=
  if c.entries.any (fun e => e.host == hostname) then
    { c with entries := c.entries.map (fun e =>
        if e.host == hostname then { e with last_accessed := now } else e) }
  else
    let es := if c.entries.length ≥ c.max_capacity then evict_lru c.entries
              else c.entries
    { c with entries := es ++ [⟨hostname, now⟩] }

/-- `CertificateCache::with_capacity`. -/
def CertificateCache.with_capacity (capacity : Nat) : CertificateCache :=
  ⟨[], capacity⟩

/-- A sequence of `get_or_create` calls against a fresh cache; each
operation is a `(hostname, now)` pair. -/
def runCache (capacity : Nat) (ops : List (List Char × Nat)) : CertificateCache :=
  ops.foldl (fun c op => c.get_or_create op.1 op.2)
    (CertificateCache.with_capacity capacity)

theorem minByKey_mem {l : List CacheEntry} {m : CacheEntry}
    (h : minByKey l = some m) : m ∈ l := by
  induction l with
  | nil => simp [minByKey] at h
  | cons e rest ih =>
    rcases hr : minByKey rest with _ | a
    · simp only [minByKey, hr] at h
      simp at h
      simp [h]
    · simp only [minByKey, hr] at h
      split at h
      · simp at h; subst h; exact List.mem_cons_of_mem _ (ih hr)
      · simp at h; simp [h]

theorem minByKey_eq_none {l : List CacheEntry} : minByKey l = none ↔ l = [] := by
  cases l with
  | nil => simp [minByKey]
  | cons e rest =>
    rcases hr : minByKey rest with _ | a
    · simp [minByKey, hr]
    · simp only [minByKey, hr]
      split <;> simp

theorem minByKey_min {l : List CacheEntry} :
    ∀ {m : CacheEntry}, minByKey l = some m →
      ∀ e ∈ l, m.last_accessed ≤ e.last_accessed := by
  induction l with
  | nil => intro m h; simp [minByKey] at h
  | cons e0 rest ih =>
    intro m h e he
    rcases hr : minByKey rest with _ | a
    · have hrest : rest = [] := minByKey_eq_none.mp hr
      subst hrest
      simp only [minByKey] at h
      simp at h
      subst h
      rcases List.mem_singleton.mp he with rfl
      exact le_refl _
    · simp only [minByKey, hr] at h
      split at h
      next hle =>
        simp at h
        subst h
        rcases List.mem_cons.mp he with rfl | he'
        · exact hle
        · exact ih hr e he'
      next hlt =>
        simp at h
        subst h
        rcases List.mem_cons.mp he with rfl | he'
        · exact le_refl _
        · have := ih hr e he'
          omega

/-- Evicting from a nonempty cache removes exactly one entry. -/
theorem evict_lru_length {l : List CacheEntry} (h : l ≠ []) :
    (evict_lru l).length = l.length - 1 := by
  rcases hm : minByKey l with _ | m
  · exact absurd (minByKey_eq_none.mp hm) h
  · unfold evict_lru
    rw [hm]
    exact List.length_eraseP_of_mem (minByKey_mem hm) (by simp)

/-- One `get_or_create` preserves the size bound (for positive capacity)
and the configured capacity. -/
theorem get_or_create_size {c : CertificateCache} (hcap : 1 ≤ c.max_capacity)
    (hle : c.entries.length ≤ c.max_capacity) (hostname : List Char) (now : Nat) :
    (c.get_or_create hostname now).entries.length ≤ c.max_capacity ∧
    (c.get_or_create hostname now).max_capacity = c.max_capacity := by
  unfold CertificateCache.get_or_create
  by_cases hhit : c.entries.any (fun e => e.host == hostname) = true
  · rw [if_pos hhit]
    constructor
    · simpa using hle
    · rfl
  · rw [if_neg hhit]
    dsimp only
    by_cases hfull : c.entries.length ≥ c.max_capacity
    · rw [if_pos hfull]
      have hne : c.entries ≠ [] := by
        intro heq
        rw [heq] at hfull
        simp at hfull
        omega
      constructor
      · rw [List.length_append, evict_lru_length hne]
        simp
        omega
      · rfl
    · rw [if_neg hfull]
      constructor
      · rw [List.length_append]
        simp
        omega
      · rfl

theorem runCache_fold_size {ops : List (List Char × Nat)} :
    ∀ c : CertificateCache, 1 ≤ c.max_capacity →
      c.entries.length ≤ c.max_capacity →
      (ops.foldl (fun c op => c.get_or_create op.1 op.2) c).entries.length ≤
          c.max_capacity ∧
        (ops.foldl (fun c op => c.get_or_create op.1 op.2) c).max_capacity =
          c.max_capacity := by
  induction ops with
  | nil => intro c _ hle; exact ⟨hle, rfl⟩
  | cons op rest ih =>
    intro c hcap hle
    obtain ⟨h1, h2⟩ := get_or_create_size hcap hle op.1 op.2
    have := ih (c.get_or_create op.1 op.2) (by omega) (by omega)
    rw [List.foldl_cons]
    constructor
    · omega
    · omega

/-- Claim C10 (amended): for every cache created with positive capacity,
no operation sequence pushes the entry count above the capacity; a miss
at capacity evicts an entry with minimal `last_accessed` before inserting;
and a hit refreshes the entry's `last_accessed` to the current instant. -/
theorem certificate_cache_props :
    (∀ cap, 1 ≤ cap → ∀ ops, (runCache cap ops).entries.length ≤ cap) ∧
    (∀ (c : CertificateCache) (hostname : List Char) (now : Nat),
      c.entries.any (fun e => e.host == hostname) = false →
      c.entries.length ≥ c.max_capacity → 1 ≤ c.max_capacity →
      ∃ me, minByKey c.entries = some me ∧
        (∀ e ∈ c.entries, me.last_accessed ≤ e.last_accessed) ∧
        (c.get_or_create hostname now).entries =
          c.entries.eraseP (fun e => e.host == me.host) ++ [⟨hostname, now⟩]) ∧
    (∀ (c : CertificateCache) (hostname : List Char) (now : Nat),
      c.entries.any (fun e => e.host == hostname) = true →
      (c.get_or_create hostname now).entries = c.entries.map (fun e =>
        if e.host == hostname then { e with last_accessed := now } else e)) := by
  refine ⟨?_, ?_, ?_⟩
  · intro cap hcap ops
    exact (runCache_fold_size (CertificateCache.with_capacity cap) hcap (by simp [CertificateCache.with_capacity])).1
  · intro c hostname now hmiss hfull hcap
    have hne : c.entries ≠ [] := by
      intro heq
      rw [heq] at hfull
      simp at hfull
      omega
    rcases hm : minByKey c.entries with _ | me
    · exact absurd (minByKey_eq_none.mp hm) hne
    · refine ⟨me, rfl, minByKey_min hm, ?_⟩
      unfold CertificateCache.get_or_create
      rw [if_neg (by rw [hmiss]; exact Bool.false_ne_true)]
      dsimp only
      rw [if_pos hfull]
      unfold evict_lru
      rw [hm]
  · intro c hostname now hhit
    unfold CertificateCache.get_or_create
    rw [if_pos hhit]

/-- Claim C10 counterexample: a cache created with capacity 0 exceeds its
capacity after a single `get_or_create` — `evict_lru` is a no-op on the
empty map and the new entry is inserted regardless. -/
theorem cache_capacity_counterexample :
    (runCache 0 [(("h").data, 0)]).entries.length = 1 ∧
    (runCache 0 [(("h").data, 0)]).max_capacity = 0 := by
  constructor <;> rfl

/-- Witness: the size bound of the amended C10 theorem on a concrete
operation sequence that hits, misses, and evicts at capacity 2. -/
theorem certificate_cache_props_witness :
    (1 : Nat) ≤ 2 ∧
    (runCache 2 [(("a").data, 0), (("b").data, 1), (("a").data, 2),
      (("c").data, 3)]).entries.length ≤ 2 :=
  ⟨by decide, certificate_cache_props.1 2 (by decide) _⟩

end Slapenir
